import Mathlib

set_option maxRecDepth 100000

/-!
Verification of the image de-scrambling codec

A shallow embedding of `descrambler.py`: the segment-count resolver `get_num`
(MD5-keyed lookup into a fixed table) and the band reassembler `restore_image`
(row-range copies from scrambled source positions to corrected destination
positions), together with theorems settling the specification's claims.

Strings are modelled as lists of bytes (their UTF-8 encoding); images as a
width plus a list of rows, each row a list of pixel values.
-/

namespace PicDownload

/-! SECTION: MD5 (as used by `hashlib.md5(...).hexdigest()`) -/

/-- The 64 per-round additive constants of MD5 (`K[i] = ⌊2³² · |sin(i+1)|⌋`). -/
def md5K : List Nat :=
  [0xd76aa478, 0xe8c7b756, 0x242070db, 0xc1bdceee,
   0xf57c0faf, 0x4787c62a, 0xa8304613, 0xfd469501,
   0x698098d8, 0x8b44f7af, 0xffff5bb1, 0x895cd7be,
   0x6b901122, 0xfd987193, 0xa679438e, 0x49b40821,
   0xf61e2562, 0xc040b340, 0x265e5a51, 0xe9b6c7aa,
   0xd62f105d, 0x02441453, 0xd8a1e681, 0xe7d3fbc8,
   0x21e1cde6, 0xc33707d6, 0xf4d50d87, 0x455a14ed,
   0xa9e3e905, 0xfcefa3f8, 0x676f02d9, 0x8d2a4c8a,
   0xfffa3942, 0x8771f681, 0x6d9d6122, 0xfde5380c,
   0xa4beea44, 0x4bdecfa9, 0xf6bb4b60, 0xbebfbc70,
   0x289b7ec6, 0xeaa127fa, 0xd4ef3085, 0x04881d05,
   0xd9d4d039, 0xe6db99e5, 0x1fa27cf8, 0xc4ac5665,
   0xf4292244, 0x432aff97, 0xab9423a7, 0xfc93a039,
   0x655b59c3, 0x8f0ccc92, 0xffeff47d, 0x85845dd1,
   0x6fa87e4f, 0xfe2ce6e0, 0xa3014314, 0x4e0811a1,
   0xf7537e82, 0xbd3af235, 0x2ad7d2bb, 0xeb86d391]

/-- The 64 per-round left-rotation amounts of MD5. -/
def md5S : List Nat :=
  [7, 12, 17, 22, 7, 12, 17, 22, 7, 12, 17, 22, 7, 12, 17, 22,
   5, 9, 14, 20, 5, 9, 14, 20, 5, 9, 14, 20, 5, 9, 14, 20,
   4, 11, 16, 23, 4, 11, 16, 23, 4, 11, 16, 23, 4, 11, 16, 23,
   6, 10, 15, 21, 6, 10, 15, 21, 6, 10, 15, 21, 6, 10, 15, 21]

/-- Running state of the MD5 compression function: four 32-bit words. -/
structure MD5State where
  a : Nat
  b : Nat
  c : Nat
  d : Nat
deriving DecidableEq

/-- MD5 initial state. -/
def md5Init : MD5State := ⟨0x67452301, 0xefcdab89, 0x98badcfe, 0x10325476⟩

/-- Left-rotation of a 32-bit word by `s` bits. -/
def rotl32 (x s : Nat) : Nat :=
  ((x % 2 ^ 32) % 2 ^ (32 - s)) * 2 ^ s + (x % 2 ^ 32) / 2 ^ (32 - s)

/-- The round-dependent nonlinear function of MD5 (F, G, H, I). -/
def md5F (b c d i : Nat) : Nat :=
  if i < 16 then (b &&& c) ||| ((b ^^^ 0xffffffff) &&& d)
  else if i < 32 then (d &&& b) ||| ((d ^^^ 0xffffffff) &&& c)
  else if i < 48 then b ^^^ c ^^^ d
  else c ^^^ (b ||| (d ^^^ 0xffffffff))

/-- The round-dependent message-word index of MD5. -/
def md5G (i : Nat) : Nat :=
  if i < 16 then i
  else if i < 32 then (5 * i + 1) % 16
  else if i < 48 then (3 * i + 5) % 16
  else (7 * i) % 16

/-- One of the 64 steps of the MD5 compression function, on message words `M`. -/
def md5Round (M : List Nat) (st : MD5State) (i : Nat) : MD5State :=
  let f := md5F st.b st.c st.d i
  let tmp := (st.a + f + md5K.getD i 0 + M.getD (md5G i) 0) % 2 ^ 32
  ⟨st.d, (st.b + rotl32 tmp (md5S.getD i 0)) % 2 ^ 32, st.b, st.c⟩

/-- Decode a 64-byte block into 16 little-endian 32-bit words. -/
def bytesToWords (block : List Nat) : List Nat :=
  (List.range 16).map fun j =>
    block.getD (4 * j) 0 + 256 * block.getD (4 * j + 1) 0 +
      65536 * block.getD (4 * j + 2) 0 + 16777216 * block.getD (4 * j + 3) 0

/-- Process one 64-byte block: 64 rounds, then add to the incoming state. -/
def md5Block (st : MD5State) (block : List Nat) : MD5State :=
  let M := bytesToWords block
  let t := (List.range 64).foldl (md5Round M) st
  ⟨(st.a + t.a) % 2 ^ 32, (st.b + t.b) % 2 ^ 32,
   (st.c + t.c) % 2 ^ 32, (st.d + t.d) % 2 ^ 32⟩

/-- MD5 padding: `0x80`, zeros to 56 mod 64, then the bit length as 8
little-endian bytes. -/
def md5Pad (msg : List Nat) : List Nat :=
  let padZeros := (56 + 64 - (msg.length + 1) % 64) % 64
  msg ++ [0x80] ++ List.replicate padZeros 0 ++
    (List.range 8).map fun i => (msg.length * 8 % 2 ^ 64) >>> (8 * i) % 256

/-- The four state words serialized as 16 little-endian bytes. -/
def wordLEBytes (w : Nat) : List Nat :=
  [w % 256, w / 256 % 256, w / 65536 % 256, w / 16777216 % 256]

/-- The MD5 digest of a byte string: 16 bytes. -/
def md5Digest (msg : List Nat) : List Nat :=
  let padded := md5Pad msg
  let final := (List.range (padded.length / 64)).foldl
    (fun st i => md5Block st ((padded.drop (64 * i)).take 64)) md5Init
  wordLEBytes final.a ++ wordLEBytes final.b ++ wordLEBytes final.c ++ wordLEBytes final.d

/-- Code point of the lowercase hexadecimal character for a nibble. -/
def hexCharCode (x : Nat) : Nat := if x < 10 then 48 + x else 87 + x

/-- The character codes of `hexdigest()`: two lowercase hex characters per
digest byte, 32 in total. -/
def md5HexCodes (msg : List Nat) : List Nat :=
  (md5Digest msg).flatMap fun b => [hexCharCode (b / 16), hexCharCode (b % 16)]

/-! SECTION: Segment-count resolver (`get_num`) -/

/-- The fixed lookup table `SEGMENT_MAP` of `descrambler.py` (分段數映射表). -/
def SEGMENT_MAP : List Nat := [2, 4, 6, 8, 10, 12, 14, 16, 18, 20]

/-- The scramble threshold constant. -/
def SCRAMBLE_THRESHOLD : Nat := 220980

/-- The mid-range boundary pair. -/
def RANGE_268850_421925 : Nat × Nat := (268850, 421925)

/-- The high-range lower boundary. -/
def RANGE_421926_PLUS : Nat := 421926

/-- The decimal ASCII bytes of `str(aid)`. -/
def decimalBytes (n : Nat) : List Nat := (Nat.toDigits 10 n).map Char.toNat

/-- `ord(md5_hash[-1])`: the code of the last character of
`hashlib.md5((str(aid) + photo_id).encode()).hexdigest()`; `photoId` stands
for the UTF-8 bytes of `photo_id`. -/
def lastHexCode (aid : Nat) (photoId : List Nat) : Option Nat :=
  (md5HexCodes (decimalBytes aid ++ photoId)).getLast?

/-- `get_num` of `descrambler.py`. The table lookup is an Option (Python list
indexing raises on an out-of-range index). -/
def get_num (aid : Nat) (photoId : List Nat) : Option Nat :=
  if aid < SCRAMBLE_THRESHOLD then some 0
  else
    match lastHexCode aid photoId with
    | none => none
    | some charCode =>
      let index :=
        if RANGE_268850_421925.1 ≤ aid ∧ aid ≤ RANGE_268850_421925.2 then charCode % 10
        else if RANGE_421926_PLUS ≤ aid then charCode % 8
        else charCode % 10
      SEGMENT_MAP[index]?

/-! SECTION: Raster images and the band reassembler (`restore_image`) -/

/-- A decoded raster image: a width and a row-major pixel buffer, one list of
pixel values per row. The height is the number of rows. -/
structure RasterImage where
  width : Nat
  rows : List (List Nat)
deriving DecidableEq

/-- Rows `[p, p + h)` of a buffer: the full-width crop box `(0, p, W, p + h)`. -/
def cropRows {α : Type} (rows : List α) (p h : Nat) : List α :=
  (rows.drop p).take h

/-- Paste a segment over rows `[u, u + seg.length)` of a buffer, clipping at
the bottom edge as `Image.paste` does. -/
def pasteRows {α : Type} (dest seg : List α) (u : Nat) : List α :=
  (dest.take u ++ seg ++ dest.drop (u + seg.length)).take dest.length

/-- `h` of the band loop: `slice_height`, plus `remainder` for the band `g = 0`. -/
def bandH (s r g : Nat) : Nat := if g = 0 then s + r else s

/-- `u` of the band loop: `slice_height * g`, plus `remainder` for `g > 0`. -/
def destTop (s r g : Nat) : Nat := if g = 0 then s * g else s * g + r

/-- `p` of the band loop: `height - slice_height * (g + 1) - remainder`,
computed in `ℤ` as Python does. -/
def srcTop (height s r g : Nat) : Int :=
  (height : Int) - (s : Int) * ((g : Int) + 1) - (r : Int)

/-- One iteration of the band loop: crop the band from the scrambled source
and paste it at its corrected destination. -/
def bandStep (src : List (List Nat)) (height s r g : Nat)
    (dest : List (List Nat)) : List (List Nat) :=
  pasteRows dest (cropRows src (srcTop height s r g).toNat (bandH s r g)) (destTop s r g)

/-- The blank buffer `Image.new` allocates: `h` rows of `w` zero pixels. -/
def blankRows (h w : Nat) : List (List Nat) :=
  List.replicate h (List.replicate w 0)

/-- The body of `restore_image` from line 108 on, given the already computed
`num_segments`: pass the image through when it is `0`, otherwise run the band
loop over a fresh blank buffer. -/
def restore_image_with (img : RasterImage) (numSegments : Nat) : RasterImage :=
  if numSegments = 0 then img
  else
    let height := img.rows.length
    let slice_height := height / numSegments
    let remainder := height % numSegments
    ⟨img.width,
      (List.range numSegments).foldl
        (fun dest g => bandStep img.rows height slice_height remainder g dest)
        (blankRows height img.width)⟩

/-- `restore_image` of `descrambler.py` after decoding: derive the band count
from the keys and reassemble. -/
def restore_image (img : RasterImage) (aid : Nat) (photoId : List Nat) :
    Option RasterImage :=
  match get_num aid photoId with
  | none => none
  | some n => some (restore_image_with img n)

/-- Modelled from the spec: the site's forward scrambling transform (§8,
"Inverse relationship") — band `g` is taken from original rows starting at
`sliceHeight*g` (shifted by `remainder` for `g > 0`, i.e. source top
`destTop`), carries the remainder rows when `g = 0` (height `bandH`), and is
placed at scrambled top `height - sliceHeight*(g+1) - remainder` (`srcTop`). -/
def scrambleStep (src : List (List Nat)) (height s r g : Nat)
    (dest : List (List Nat)) : List (List Nat) :=
  pasteRows dest (cropRows src (destTop s r g) (bandH s r g)) (srcTop height s r g).toNat

/-- Modelled from the spec: the site's forward scramble of a whole image, the
per-band placements of `scrambleStep` over a blank buffer. -/
def scrambleSpec (img : RasterImage) (n : Nat) : RasterImage :=
  if n = 0 then img
  else
    let height := img.rows.length
    ⟨img.width,
      (List.range n).foldl
        (fun dest g => scrambleStep img.rows height (height / n) (height % n) g dest)
        (blankRows height img.width)⟩

/-! SECTION: Crop/paste algebra -/

theorem length_cropRows {α : Type} (l : List α) (p h : Nat) :
    (cropRows l p h).length = min h (l.length - p) := by
  simp [cropRows]

theorem length_cropRows_of_le {α : Type} (l : List α) {p h : Nat}
    (hle : p + h ≤ l.length) : (cropRows l p h).length = h := by
  rw [length_cropRows]
  omega

theorem cropRows_append_cropRows {α : Type} (l : List α) (a b c : Nat) :
    cropRows l a b ++ cropRows l (a + b) c = cropRows l a (b + c) := by
  unfold cropRows
  rw [show l.drop (a + b) = (l.drop a).drop b from (List.drop_drop b a l).symm]
  exact (List.take_add _ _ _).symm

theorem pasteRows_split {α : Type} (pre rest seg : List α)
    (hle : seg.length ≤ rest.length) :
    pasteRows (pre ++ rest) seg pre.length = pre ++ seg ++ rest.drop seg.length := by
  unfold pasteRows
  rw [List.take_left, List.drop_append]
  apply List.take_of_length_le
  simp only [List.length_append, List.length_drop]
  omega

theorem pasteRows_inbounds {α : Type} (dest seg : List α) (u : Nat)
    (h : u + seg.length ≤ dest.length) :
    pasteRows dest seg u = dest.take u ++ seg ++ dest.drop (u + seg.length) := by
  unfold pasteRows
  apply List.take_of_length_le
  simp only [List.length_append, List.length_take, List.length_drop]
  omega

theorem bandH_zero (s r : Nat) : bandH s r 0 = s + r := rfl

theorem destTop_zero (s r : Nat) : destTop s r 0 = 0 := by
  simp [destTop]

theorem bandH_pos (s r g : Nat) (h : g ≠ 0) : bandH s r g = s := by
  simp [bandH, h]

theorem destTop_pos (s r g : Nat) (h : g ≠ 0) : destTop s r g = s * g + r := by
  simp [destTop, h]

theorem flatten_chunks_length {α : Type} {s : Nat} :
    ∀ L : List (List α), (∀ x ∈ L, x.length = s) → L.flatten.length = s * L.length
  | [], _ => by simp
  | x :: t, h => by
    have hx : x.length = s := h x (List.mem_cons_self x t)
    have ht := flatten_chunks_length t fun y hy => h y (List.mem_cons_of_mem x hy)
    simp only [List.flatten_cons, List.length_append, hx, ht, List.length_cons]
    ring

theorem cropRows_flatten_chunk {α : Type} {s : Nat} :
    ∀ (L : List (List α)) (i : Nat), (∀ x ∈ L, x.length = s) → i < L.length →
      cropRows L.flatten (s * i) s = L.getD i []
  | [], i, _, hi => by simp at hi
  | x :: t, 0, h, _ => by
    have hx : x.length = s := h x (List.mem_cons_self x t)
    rw [List.getD_cons_zero]
    simp only [List.flatten_cons, cropRows, Nat.mul_zero, List.drop_zero]
    rw [← hx, List.take_left]
  | x :: t, i + 1, h, hi => by
    have hx : x.length = s := h x (List.mem_cons_self x t)
    have ht : ∀ y ∈ t, y.length = s := fun y hy => h y (List.mem_cons_of_mem x hy)
    have hit : i < t.length := by simpa using Nat.lt_of_succ_lt_succ hi
    have step : cropRows (x :: t).flatten (s * (i + 1)) s = cropRows t.flatten (s * i) s := by
      unfold cropRows
      rw [List.flatten_cons,
        show s * (i + 1) = x.length + s * i from by rw [hx]; ring,
        List.drop_append]
    rw [step, cropRows_flatten_chunk t i ht hit, List.getD_cons_succ]

theorem flatten_consecutive_crops {α : Type} (l : List α) (a s : Nat) :
    ∀ m : Nat,
      ((List.range m).map fun i => cropRows l (a + s * i) s).flatten = cropRows l a (s * m)
  | 0 => by simp [cropRows]
  | m + 1 => by
    rw [List.range_succ, List.map_append, List.flatten_append,
      flatten_consecutive_crops l a s m]
    simp only [List.map_cons, List.map_nil, List.flatten_cons, List.flatten_nil,
      List.append_nil]
    rw [cropRows_append_cropRows]
    ring_nf

theorem reverse_map_range' {α : Type} (f : Nat → List α) (m : Nat) :
    ((List.range' 1 m).map f).reverse = (List.range m).map fun i => f (m - i) := by
  rw [← List.map_reverse, List.reverse_range', List.map_map]
  apply List.map_congr_left
  intro i _
  simp only [Function.comp_apply, Nat.add_sub_cancel_left]

/-! SECTION: The geometry of the band loop -/

theorem srcTop_eq {s r n g : Nat} (hg : g < n) :
    srcTop (s * n + r) s r g = ((s * (n - 1 - g) : Nat) : Int) := by
  unfold srcTop
  rw [show s * n + r = s * (g + 1) + (s * (n - 1 - g) + r) from by
    have e : s * (g + 1) + s * (n - 1 - g) = s * n := by
      rw [← Nat.left_distrib]
      congr 1
      omega
    omega]
  push_cast
  ring

theorem srcTop_nonneg {s r n g : Nat} (hg : g < n) :
    0 ≤ srcTop (s * n + r) s r g := by
  rw [srcTop_eq hg]
  exact Int.natCast_nonneg _

theorem srcTop_toNat {s r n g : Nat} (hg : g < n) :
    (srcTop (s * n + r) s r g).toNat = s * (n - 1 - g) := by
  rw [srcTop_eq hg]
  exact Int.toNat_natCast _

/-- Invariant of the band loop of `restore_image`: once the first `g ≥ 1`
bands have laid down a prefix of `s*g + r` rows, the remaining iterations
append the bands `g, g+1, …, n-1` in order. -/
theorem restore_loop_inv (src : List (List Nat)) (s r n : Nat)
    (hlen : src.length = s * n + r) :
    ∀ k g : Nat, g + k = n → 1 ≤ g →
      ∀ pre rest : List (List Nat), pre.length = s * g + r → rest.length = s * k →
        (List.range' g k).foldl (fun dest j => bandStep src (s * n + r) s r j dest)
            (pre ++ rest)
          = pre ++ ((List.range' g k).map fun j => cropRows src (s * (n - 1 - j)) s).flatten := by
  intro k
  induction k with
  | zero =>
    intro g hgk hg pre rest hpre hrest
    have hrest0 : rest = [] := List.eq_nil_of_length_eq_zero (by simpa using hrest)
    subst hrest0
    simp
  | succ k ih =>
    intro g hgk hg pre rest hpre hrest
    have hgn : g < n := by omega
    have hg0 : g ≠ 0 := by omega
    have hmul1 : s * (n - 1 - g) + s = s * (n - g) := by
      rw [← Nat.mul_succ]
      congr 1
      omega
    have hmul2 : s * (n - g) ≤ s * n := Nat.mul_le_mul_left s (by omega)
    have hmuls : s * (g + 1) = s * g + s := Nat.mul_succ s g
    have hmulk : s * (k + 1) = s * k + s := Nat.mul_succ s k
    have hseg : (cropRows src (s * (n - 1 - g)) s).length = s :=
      length_cropRows_of_le src (by omega)
    have hcons : List.range' g (k + 1) = g :: List.range' (g + 1) k := rfl
    rw [hcons, List.foldl_cons]
    have hstep : bandStep src (s * n + r) s r g (pre ++ rest)
        = pre ++ cropRows src (s * (n - 1 - g)) s ++ rest.drop s := by
      unfold bandStep
      rw [srcTop_toNat hgn]
      simp only [bandH, destTop, if_neg hg0]
      rw [← hpre, pasteRows_split pre rest _ (by omega), hseg]
    rw [hstep]
    rw [ih (g + 1) (by omega) (by omega) (pre ++ cropRows src (s * (n - 1 - g)) s)
      (rest.drop s) (by simp [hpre, hseg]; omega) (by simp; omega)]
    simp [List.append_assoc]

/-- Closed form of the band loop of `restore_image`: the output buffer is the
remainder-carrying band read from source top `s*(n-1)` followed by the bands
`g = 1, …, n-1` read from source tops `s*(n-1-g)`. -/
theorem restore_rows_eq (src : List (List Nat)) (w n : Nat) (hn : 1 ≤ n) :
    (List.range n).foldl
        (fun dest g => bandStep src src.length (src.length / n) (src.length % n) g dest)
        (blankRows src.length w)
      = cropRows src (src.length / n * (n - 1)) (src.length / n + src.length % n)
        ++ ((List.range' 1 (n - 1)).map fun j =>
              cropRows src (src.length / n * (n - 1 - j)) (src.length / n)).flatten := by
  generalize hs : src.length / n = s
  generalize hr : src.length % n = r
  have hlen : src.length = s * n + r := by
    rw [← hs, ← hr, Nat.mul_comm]
    exact (Nat.div_add_mod _ n).symm
  rw [hlen]
  obtain ⟨m, rfl⟩ : ∃ m, n = m + 1 := ⟨n - 1, by omega⟩
  have hms : s * (m + 1) = s * m + s := Nat.mul_succ s m
  have hblank : (blankRows (s * (m + 1) + r) w).length = s * (m + 1) + r := by
    simp [blankRows]
  have hseg0 : (cropRows src (s * m) (s + r)).length = s + r :=
    length_cropRows_of_le src (by omega)
  rw [List.range_eq_range', show List.range' 0 (m + 1) = 0 :: List.range' 1 m from rfl,
    List.foldl_cons]
  have hstep0 : bandStep src (s * (m + 1) + r) s r 0 (blankRows (s * (m + 1) + r) w)
      = cropRows src (s * m) (s + r) ++ (blankRows (s * (m + 1) + r) w).drop (s + r) := by
    unfold bandStep
    rw [srcTop_toNat (show 0 < m + 1 by omega)]
    simp only [bandH, destTop, if_pos rfl, Nat.mul_zero, Nat.add_sub_cancel, Nat.sub_zero]
    have := pasteRows_split [] (blankRows (s * (m + 1) + r) w)
      (cropRows src (s * m) (s + r)) (by omega)
    simpa [hseg0] using this
  rw [hstep0]
  rw [restore_loop_inv src s r (m + 1) hlen m 1 (by omega) (by omega)
    (cropRows src (s * m) (s + r)) ((blankRows (s * (m + 1) + r) w).drop (s + r))
    (by omega) (by simp [hblank]; omega)]
  simp

theorem cropRows_zero {α : Type} (l : List α) (h : Nat) : cropRows l 0 h = l.take h := by
  simp [cropRows]

/-- `restore_image_with`, for a positive band count, in closed form. -/
theorem restore_image_with_rows (img : RasterImage) (n : Nat) (hn : 1 ≤ n) :
    restore_image_with img n
      = ⟨img.width,
          cropRows img.rows (img.rows.length / n * (n - 1))
              (img.rows.length / n + img.rows.length % n)
            ++ ((List.range' 1 (n - 1)).map fun j =>
                  cropRows img.rows (img.rows.length / n * (n - 1 - j))
                    (img.rows.length / n)).flatten⟩ := by
  unfold restore_image_with
  rw [if_neg (show ¬ n = 0 by omega)]
  exact congrArg (RasterImage.mk img.width) (restore_rows_eq img.rows img.width n hn)

/-- The bands the restore loop lays down are, reversed, exactly the
consecutive chunks of the source: so the output is a permutation of the
source rows. -/
theorem restore_rows_perm (src : List (List Nat)) (w n : Nat) (hn : 1 ≤ n) :
    List.Perm
      ((List.range n).foldl
        (fun dest g => bandStep src src.length (src.length / n) (src.length % n) g dest)
        (blankRows src.length w))
      src := by
  rw [restore_rows_eq src w n hn]
  generalize hs : src.length / n = s
  generalize hr : src.length % n = r
  have hlen : src.length = s * n + r := by
    rw [← hs, ← hr, Nat.mul_comm]
    exact (Nat.div_add_mod _ n).symm
  obtain ⟨m, rfl⟩ : ∃ m, n = m + 1 := ⟨n - 1, by omega⟩
  have hms : s * (m + 1) = s * m + s := Nat.mul_succ s m
  simp only [Nat.add_sub_cancel]
  rw [← List.flatten_cons]
  have key : (cropRows src (s * m) (s + r)
      :: (List.range' 1 m).map fun j => cropRows src (s * (m + 1 - 1 - j)) s).reverse.flatten
      = src := by
    rw [List.reverse_cons, List.flatten_append, reverse_map_range']
    have hmap : ((List.range m).map fun i => cropRows src (s * (m + 1 - 1 - (m - i))) s)
        = (List.range m).map fun i => cropRows src (0 + s * i) s := by
      apply List.map_congr_left
      intro i hi
      have him : i < m := List.mem_range.mp hi
      rw [show m + 1 - 1 - (m - i) = i from by omega, Nat.zero_add]
    rw [hmap, flatten_consecutive_crops]
    simp only [List.flatten_cons, List.flatten_nil, List.append_nil]
    have : cropRows src 0 (s * m) ++ cropRows src (0 + s * m) (s + r)
        = cropRows src 0 (s * m + (s + r)) := cropRows_append_cropRows src 0 (s * m) (s + r)
    rw [Nat.zero_add] at this
    rw [this, cropRows_zero]
    exact List.take_of_length_le (by omega)
  have hperm :=
    (List.reverse_perm (cropRows src (s * m) (s + r)
      :: (List.range' 1 m).map fun j => cropRows src (s * (m + 1 - 1 - j)) s)).flatten
  rw [key] at hperm
  exact hperm.symm

/-- Invariant of the forward scramble loop: with the bands `0, …, g-1` already
deposited as a suffix and a blank prefix of `s*k` rows remaining, the
iterations `g, …, n-1` fill the prefix with those bands in reverse order. -/
theorem scramble_loop_inv (src : List (List Nat)) (s r n : Nat)
    (hlen : src.length = s * n + r) :
    ∀ k g : Nat, g + k = n → 1 ≤ g →
      ∀ B suf : List (List Nat), B.length = s * k →
        (List.range' g k).foldl (fun dest j => scrambleStep src (s * n + r) s r j dest)
            (B ++ suf)
          = ((List.range' g k).map fun j => cropRows src (s * j + r) s).reverse.flatten
            ++ suf := by
  intro k
  induction k with
  | zero =>
    intro g hgk hg B suf hB
    have hB0 : B = [] := List.eq_nil_of_length_eq_zero (by simpa using hB)
    subst hB0
    simp
  | succ k ih =>
    intro g hgk hg B suf hB
    have hgn : g < n := by omega
    have hg0 : g ≠ 0 := by omega
    have hk : n - 1 - g = k := by omega
    have hmulg : s * (g + 1) = s * g + s := Nat.mul_succ s g
    have hmulg' : s * (g + 1) ≤ s * n := Nat.mul_le_mul_left s (by omega)
    have hmulk : s * (k + 1) = s * k + s := Nat.mul_succ s k
    have hseg : (cropRows src (s * g + r) s).length = s :=
      length_cropRows_of_le src (by omega)
    have htake : (B.take (s * k)).length = s * k := by
      simp [hB]
      omega
    have hdrop : (B.drop (s * k)).length = s := by
      simp [hB]
      omega
    have hcons : List.range' g (k + 1) = g :: List.range' (g + 1) k := rfl
    rw [hcons, List.foldl_cons]
    have hstep : scrambleStep src (s * n + r) s r g (B ++ suf)
        = B.take (s * k) ++ cropRows src (s * g + r) s ++ suf := by
      unfold scrambleStep
      rw [srcTop_toNat hgn, hk, bandH_pos s r g hg0, destTop_pos s r g hg0]
      rw [pasteRows_inbounds _ _ _ (by simp [hseg, hB]; omega)]
      rw [hseg, List.take_append_of_le_length (by omega),
        show s * k + s = B.length from by omega, List.drop_left]
    rw [hstep, List.append_assoc,
      ih (g + 1) (by omega) (by omega) (B.take (s * k)) (cropRows src (s * g + r) s ++ suf)
        htake]
    simp [List.append_assoc]

/-- Closed form of the forward scramble: band `0` (with the remainder rows)
lands at the bottom of the buffer, the remaining bands stack above it in
reverse order. -/
theorem scramble_rows_eq (src : List (List Nat)) (w n : Nat) (hn : 1 ≤ n) :
    (List.range n).foldl
        (fun dest g => scrambleStep src src.length (src.length / n) (src.length % n) g dest)
        (blankRows src.length w)
      = ((List.range' 1 (n - 1)).map fun j =>
            cropRows src (src.length / n * j + src.length % n) (src.length / n)).reverse.flatten
        ++ cropRows src 0 (src.length / n + src.length % n) := by
  generalize hs : src.length / n = s
  generalize hr : src.length % n = r
  have hlen : src.length = s * n + r := by
    rw [← hs, ← hr, Nat.mul_comm]
    exact (Nat.div_add_mod _ n).symm
  rw [hlen]
  obtain ⟨m, rfl⟩ : ∃ m, n = m + 1 := ⟨n - 1, by omega⟩
  have hms : s * (m + 1) = s * m + s := Nat.mul_succ s m
  have hblank : (blankRows (s * (m + 1) + r) w).length = s * (m + 1) + r := by
    simp [blankRows]
  have hseg0 : (cropRows src 0 (s + r)).length = s + r :=
    length_cropRows_of_le src (by omega)
  have htake : ((blankRows (s * (m + 1) + r) w).take (s * m)).length = s * m := by
    simp [hblank]
    omega
  have hdrop : ((blankRows (s * (m + 1) + r) w).drop (s * m)).length = s + r := by
    simp [hblank]
    omega
  rw [List.range_eq_range', show List.range' 0 (m + 1) = 0 :: List.range' 1 m from rfl,
    List.foldl_cons]
  have hstep0 : scrambleStep src (s * (m + 1) + r) s r 0 (blankRows (s * (m + 1) + r) w)
      = (blankRows (s * (m + 1) + r) w).take (s * m) ++ cropRows src 0 (s + r) := by
    unfold scrambleStep
    rw [srcTop_toNat (show 0 < m + 1 by omega), bandH_zero, destTop_zero]
    simp only [Nat.add_sub_cancel, Nat.sub_zero]
    rw [pasteRows_inbounds _ _ _ (by simp [hseg0, hblank]; omega)]
    rw [hseg0, List.drop_eq_nil_of_le (by simp [hblank]; omega), List.append_nil]
  rw [hstep0,
    scramble_loop_inv src s r (m + 1) hlen m 1 (by omega) (by omega)
      ((blankRows (s * (m + 1) + r) w).take (s * m)) (cropRows src 0 (s + r)) htake]
  simp

/-- Restoring a scrambled image recovers the original: each band the restore
loop reads from the scrambled buffer is exactly the band the forward scramble
deposited there, and laid end to end they reproduce the source rows. -/
theorem roundtrip_rows (src : List (List Nat)) (w n : Nat) (hn : 1 ≤ n)
    (hle : n ≤ src.length) :
    restore_image_with (scrambleSpec ⟨w, src⟩ n) n = ⟨w, src⟩ := by
  have hn0 : ¬ n = 0 := by omega
  have hsc : scrambleSpec ⟨w, src⟩ n
      = ⟨w, ((List.range' 1 (n - 1)).map fun j =>
            cropRows src (src.length / n * j + src.length % n) (src.length / n)).reverse.flatten
          ++ cropRows src 0 (src.length / n + src.length % n)⟩ := by
    unfold scrambleSpec
    rw [if_neg hn0]
    exact congrArg (RasterImage.mk w) (scramble_rows_eq src w n hn)
  rw [hsc]
  generalize hs : src.length / n = s
  generalize hr : src.length % n = r
  have hlen : src.length = s * n + r := by
    rw [← hs, ← hr, Nat.mul_comm]
    exact (Nat.div_add_mod _ n).symm
  obtain ⟨m, rfl⟩ : ∃ m, n = m + 1 := ⟨n - 1, by omega⟩
  have hms : s * (m + 1) = s * m + s := Nat.mul_succ s m
  simp only [Nat.add_sub_cancel]
  set M := (List.range' 1 m).map fun j => cropRows src (s * j + r) s with hM
  set C := M.reverse with hC
  set T := C.flatten with hT
  set seg0 := cropRows src 0 (s + r) with hseg0
  have hchunk : ∀ x ∈ C, x.length = s := by
    intro x hx
    obtain ⟨j, hj, rfl⟩ := List.mem_map.mp (List.mem_reverse.mp hx)
    obtain ⟨i, hi, rfl⟩ := List.mem_range'.mp hj
    apply length_cropRows_of_le
    have h1 : s * (1 + 1 * i + 1) ≤ s * (m + 1) := Nat.mul_le_mul_left s (by omega)
    have h2 : s * (1 + 1 * i + 1) = s * (1 + 1 * i) + s := Nat.mul_succ s (1 + 1 * i)
    omega
  have hClen : C.length = m := by
    simp [hC, hM]
  have hTlen : T.length = s * m := by
    rw [hT, flatten_chunks_length C hchunk, hClen]
  have hseg0len : seg0.length = s + r := by
    rw [hseg0]
    exact length_cropRows_of_le src (by omega)
  have hYlen : (T ++ seg0).length = src.length := by
    simp only [List.length_append, hTlen, hseg0len]
    omega
  rw [restore_image_with_rows ⟨w, T ++ seg0⟩ (m + 1) (by omega)]
  dsimp only
  rw [hYlen, hs, hr]
  simp only [Nat.add_sub_cancel, RasterImage.mk.injEq]
  refine ⟨trivial, ?_⟩
  have hA : cropRows (T ++ seg0) (s * m) (s + r) = seg0 := by
    unfold cropRows
    rw [show s * m = T.length from hTlen.symm, List.drop_left]
    exact List.take_of_length_le (by omega)
  have hChunks : C = (List.range m).map fun i => cropRows src (s * (m - i) + r) s := by
    rw [hC, hM, reverse_map_range']
  have hB : ∀ j, 1 ≤ j → j < m + 1 →
      cropRows (T ++ seg0) (s * (m - j)) s = cropRows src (s * j + r) s := by
    intro j h1 h2
    have hi : m - j < m := by omega
    have hstep1 : cropRows (T ++ seg0) (s * (m - j)) s = cropRows T (s * (m - j)) s := by
      unfold cropRows
      rw [List.drop_append_of_le_length
        (by rw [hTlen]; exact Nat.mul_le_mul_left s (by omega))]
      rw [List.take_append_of_le_length (by
        simp only [List.length_drop, hTlen]
        have h3 : s * (m - j) + s = s * (m - j + 1) := (Nat.mul_succ s (m - j)).symm
        have h4 : s * (m - j + 1) ≤ s * m := Nat.mul_le_mul_left s (by omega)
        omega)]
    rw [hstep1, cropRows_flatten_chunk C (m - j) hchunk (by omega), hChunks]
    rw [List.getD_eq_getElem?_getD, List.getElem?_map, List.getElem?_range hi]
    simp only [Option.map_some', Option.getD_some]
    rw [show m - (m - j) = j from by omega]
  have hmap2 : ((List.range' 1 m).map fun j => cropRows (T ++ seg0) (s * (m - j)) s)
      = (List.range' 1 m).map fun j => cropRows src (s * j + r) s := by
    apply List.map_congr_left
    intro j hj
    obtain ⟨i, hi, rfl⟩ := List.mem_range'.mp hj
    exact hB _ (by omega) (by omega)
  have hflat : ((List.range' 1 m).map fun j => cropRows src (s * j + r) s).flatten
      = cropRows src (s + r) (s * m) := by
    rw [List.range'_eq_map_range, List.map_map]
    rw [show ((fun j => cropRows src (s * j + r) s) ∘ fun i => 1 + i)
        = fun i => cropRows src (s + r + s * i) s from by
      funext i
      simp only [Function.comp_apply]
      congr 1
      have := Nat.left_distrib s 1 i
      omega]
    exact flatten_consecutive_crops src (s + r) s m
  rw [hA, hmap2, hflat, hseg0]
  have hcomb : cropRows src 0 (s + r) ++ cropRows src (0 + (s + r)) (s * m)
      = cropRows src 0 (s + r + s * m) := cropRows_append_cropRows src 0 (s + r) (s * m)
  rw [Nat.zero_add] at hcomb
  rw [hcomb, cropRows_zero]
  exact List.take_of_length_le (by omega)

/-! SECTION: Properties of the resolver -/

theorem md5HexCodes_ne_nil (msg : List Nat) : md5HexCodes msg ≠ [] := by
  simp [md5HexCodes, md5Digest, wordLEBytes]

theorem lastHexCode_some (aid : Nat) (pid : List Nat) :
    ∃ c, lastHexCode aid pid = some c := by
  rw [lastHexCode]
  exact Option.isSome_iff_exists.mp
    (List.getLast?_isSome.mpr (md5HexCodes_ne_nil _))

theorem get_num_below_threshold (aid : Nat) (pid : List Nat)
    (h : aid < SCRAMBLE_THRESHOLD) : get_num aid pid = some 0 := by
  rw [get_num, if_pos h]

theorem get_num_eq_mid (aid : Nat) (pid : List Nat) (c : Nat)
    (h1 : 268850 ≤ aid) (h2 : aid ≤ 421925) (hc : lastHexCode aid pid = some c) :
    get_num aid pid = SEGMENT_MAP[c % 10]? := by
  rw [get_num, if_neg (by simp only [SCRAMBLE_THRESHOLD]; omega), hc]
  simp only [RANGE_268850_421925]
  rw [if_pos ⟨h1, h2⟩]

theorem get_num_eq_high (aid : Nat) (pid : List Nat) (c : Nat)
    (h1 : RANGE_421926_PLUS ≤ aid) (hc : lastHexCode aid pid = some c) :
    get_num aid pid = SEGMENT_MAP[c % 8]? := by
  simp only [RANGE_421926_PLUS] at h1
  rw [get_num, if_neg (by simp only [SCRAMBLE_THRESHOLD]; omega), hc]
  simp only [RANGE_268850_421925, RANGE_421926_PLUS]
  rw [if_neg (by omega), if_pos (by omega)]

theorem get_num_eq_low (aid : Nat) (pid : List Nat) (c : Nat)
    (h1 : SCRAMBLE_THRESHOLD ≤ aid) (h2 : aid < 268850)
    (hc : lastHexCode aid pid = some c) :
    get_num aid pid = SEGMENT_MAP[c % 10]? := by
  simp only [SCRAMBLE_THRESHOLD] at h1
  rw [get_num, if_neg (by simp only [SCRAMBLE_THRESHOLD]; omega), hc]
  simp only [RANGE_268850_421925, RANGE_421926_PLUS]
  rw [if_neg (by omega), if_neg (by omega)]

theorem segment_map_lookup_lt_ten :
    ∀ i, i < 10 → ∃ v, SEGMENT_MAP[i]? = some v ∧ v ∈ [2, 4, 6, 8, 10, 12, 14, 16, 18, 20]
      ∧ v ≠ 0 := by
  decide

theorem segment_map_lookup_lt_eight :
    ∀ i, i < 8 → ∃ v, SEGMENT_MAP[i]? = some v ∧ v ∈ [2, 4, 6, 8, 10, 12, 14, 16] := by
  decide

/-! SECTION: Claims about the segment-count resolver -/

/-- C4. Known regression vector: `get_num(1223474, "00001")` returns exactly
`6`, because the lowercase hex MD5 digest of the UTF-8 bytes of
`"122347400001"` ends in the character `'2'` (code 50), `50 % 8 = 2`, and
the lookup table entry at index `2` is `6`. -/
theorem get_num_known_vector :
    decimalBytes 1223474 ++ [48, 48, 48, 48, 49]
        = [49, 50, 50, 51, 52, 55, 52, 48, 48, 48, 48, 49]
    ∧ lastHexCode 1223474 [48, 48, 48, 48, 49] = some 50
    ∧ 50 % 8 = 2
    ∧ SEGMENT_MAP[2]? = some 6
    ∧ get_num 1223474 [48, 48, 48, 48, 49] = some 6 := by
  refine ⟨by decide, by decide, by decide, by decide, by decide⟩

/-- C5. Threshold boundary: `get_num` returns `0` whenever
`aid < 220980` (in particular at `aid = 220979`), and
`get_num 220980 "00001"` is a nonzero member of the segment table. -/
theorem get_num_threshold_boundary :
    (∀ aid pid, aid < 220980 → get_num aid pid = some 0)
    ∧ (∀ pid, get_num 220979 pid = some 0)
    ∧ ∃ v, get_num 220980 [48, 48, 48, 48, 49] = some v
        ∧ v ∈ [2, 4, 6, 8, 10, 12, 14, 16, 18, 20] ∧ v ≠ 0 := by
  refine ⟨fun aid pid h => get_num_below_threshold aid pid h,
    fun pid => get_num_below_threshold 220979 pid (by decide),
    ⟨2, by decide, by decide, by decide⟩⟩

/-- Witness for C5 at concrete inputs. -/
theorem get_num_threshold_boundary_witness :
    get_num 100000 [48] = some 0 ∧ get_num 220979 [] = some 0 :=
  ⟨get_num_threshold_boundary.1 100000 [48] (by decide),
   get_num_threshold_boundary.2.1 []⟩

/-- C6. Modulus range selection: for `aid ≥ 421926` the result lies in the
8-entry table slice; for the two lower scrambled ranges the index is the
last hex character's code mod 10 and the result lies in the full table. -/
theorem get_num_modulus_ranges (aid : Nat) (pid : List Nat) :
    (RANGE_421926_PLUS ≤ aid →
      ∃ v, get_num aid pid = some v ∧ v ∈ [2, 4, 6, 8, 10, 12, 14, 16])
    ∧ (268850 ≤ aid → aid ≤ 421925 →
      (∀ c, lastHexCode aid pid = some c → get_num aid pid = SEGMENT_MAP[c % 10]?)
      ∧ ∃ v, get_num aid pid = some v ∧ v ∈ [2, 4, 6, 8, 10, 12, 14, 16, 18, 20])
    ∧ (220980 ≤ aid → aid < 268850 →
      (∀ c, lastHexCode aid pid = some c → get_num aid pid = SEGMENT_MAP[c % 10]?)
      ∧ ∃ v, get_num aid pid = some v ∧ v ∈ [2, 4, 6, 8, 10, 12, 14, 16, 18, 20]) := by
  obtain ⟨c, hc⟩ := lastHexCode_some aid pid
  refine ⟨fun h => ?_, fun h1 h2 => ⟨fun c' hc' => get_num_eq_mid aid pid c' h1 h2 hc', ?_⟩,
    fun h1 h2 => ⟨fun c' hc' =>
      get_num_eq_low aid pid c' (by simp only [SCRAMBLE_THRESHOLD]; omega) h2 hc', ?_⟩⟩
  · rw [get_num_eq_high aid pid c h hc]
    exact segment_map_lookup_lt_eight (c % 8) (Nat.mod_lt _ (by norm_num))
  · rw [get_num_eq_mid aid pid c h1 h2 hc]
    obtain ⟨v, hv, hmem, _⟩ := segment_map_lookup_lt_ten (c % 10) (Nat.mod_lt _ (by norm_num))
    exact ⟨v, hv, hmem⟩
  · rw [get_num_eq_low aid pid c (by simp only [SCRAMBLE_THRESHOLD]; omega) h2 hc]
    obtain ⟨v, hv, hmem, _⟩ := segment_map_lookup_lt_ten (c % 10) (Nat.mod_lt _ (by norm_num))
    exact ⟨v, hv, hmem⟩

/-- Witness for C6: one concrete album id in each of the three ranges. -/
theorem get_num_modulus_ranges_witness :
    (∃ v, get_num 500000 [48] = some v ∧ v ∈ [2, 4, 6, 8, 10, 12, 14, 16])
    ∧ (∃ v, get_num 300000 [48] = some v ∧ v ∈ [2, 4, 6, 8, 10, 12, 14, 16, 18, 20])
    ∧ (∃ v, get_num 250000 [48] = some v ∧ v ∈ [2, 4, 6, 8, 10, 12, 14, 16, 18, 20]) :=
  ⟨(get_num_modulus_ranges 500000 [48]).1 (by decide),
   ((get_num_modulus_ranges 300000 [48]).2.1 (by decide) (by decide)).2,
   ((get_num_modulus_ranges 250000 [48]).2.2 (by decide) (by decide)).2⟩

/-- C9. Totality: `get_num` returns a value for every album id and every
photo id byte string — the computed table index is always in range. -/
theorem get_num_total (aid : Nat) (pid : List Nat) : ∃ v, get_num aid pid = some v := by
  by_cases h : aid < SCRAMBLE_THRESHOLD
  · exact ⟨0, get_num_below_threshold aid pid h⟩
  · obtain ⟨c, hc⟩ := lastHexCode_some aid pid
    by_cases h2 : 268850 ≤ aid ∧ aid ≤ 421925
    · rw [get_num_eq_mid aid pid c h2.1 h2.2 hc]
      obtain ⟨v, hv, _, _⟩ := segment_map_lookup_lt_ten (c % 10) (Nat.mod_lt _ (by norm_num))
      exact ⟨v, hv⟩
    · by_cases h3 : RANGE_421926_PLUS ≤ aid
      · rw [get_num_eq_high aid pid c h3 hc]
        obtain ⟨v, hv, _⟩ := segment_map_lookup_lt_eight (c % 8) (Nat.mod_lt _ (by norm_num))
        exact ⟨v, hv⟩
      · simp only [RANGE_421926_PLUS] at h3
        have hlow : aid < 268850 := by
          rcases Nat.lt_or_ge aid 268850 with h4 | h4
          · exact h4
          · exact absurd ⟨h4, by omega⟩ h2
        rw [get_num_eq_low aid pid c (by simp only [SCRAMBLE_THRESHOLD] at h ⊢; omega)
          hlow hc]
        obtain ⟨v, hv, _, _⟩ := segment_map_lookup_lt_ten (c % 10) (Nat.mod_lt _ (by norm_num))
        exact ⟨v, hv⟩

/-- C8. No-op pass-through: below the scramble threshold the derived band
count is `0` and `restore_image` returns the input image unchanged. -/
theorem restore_image_noop_below_threshold (img : RasterImage) (aid : Nat)
    (pid : List Nat) (h : aid < SCRAMBLE_THRESHOLD) :
    get_num aid pid = some 0 ∧ restore_image img aid pid = some img := by
  have h0 := get_num_below_threshold aid pid h
  refine ⟨h0, ?_⟩
  rw [restore_image, h0]
  simp [restore_image_with]

/-- Witness for C8 at a concrete image and key pair. -/
theorem restore_image_noop_below_threshold_witness :
    get_num 100000 [48, 48, 48, 48, 49] = some 0
    ∧ restore_image ⟨1, [[5], [7]]⟩ 100000 [48, 48, 48, 48, 49] = some ⟨1, [[5], [7]]⟩ :=
  restore_image_noop_below_threshold ⟨1, [[5], [7]]⟩ 100000 [48, 48, 48, 48, 49] (by decide)

/-! SECTION: Claims about the band reassembler -/

theorem cropRows_height_zero {α : Type} (l : List α) (p : Nat) : cropRows l p 0 = [] := by
  simp [cropRows]

/-- When the band count exceeds the height, `slice_height = 0`, the band
`g = 0` copies the whole buffer, every later band copies nothing, and the
loop reproduces the input. Shared by the C3 and C10 theorems. -/
theorem restore_identity_of_height_lt (img : RasterImage) (n : Nat)
    (h1 : 1 ≤ img.rows.length) (h2 : img.rows.length < n) :
    restore_image_with img n = img := by
  obtain ⟨w, rows⟩ := img
  dsimp only at h1 h2 ⊢
  rw [restore_image_with_rows ⟨w, rows⟩ n (by omega)]
  dsimp only
  rw [Nat.div_eq_of_lt h2, Nat.mod_eq_of_lt h2]
  simp only [Nat.zero_mul, Nat.zero_add, RasterImage.mk.injEq]
  refine ⟨trivial, ?_⟩
  simp [cropRows_height_zero, cropRows_zero]

/-- C1. Round-trip inverse: scrambling an image with the site's forward
transform and then running the band loop of `restore_image` returns the
original buffer row for row. -/
theorem restore_inverts_scramble (img : RasterImage) (n : Nat) (h1 : 1 ≤ n)
    (_h20 : n ≤ 20) (h3 : n ≤ img.rows.length) :
    restore_image_with (scrambleSpec img n) n = img := by
  obtain ⟨w, rows⟩ := img
  exact roundtrip_rows rows w n h1 h3

/-- Witness for C1 on a concrete five-row image with two bands. -/
theorem restore_inverts_scramble_witness :
    restore_image_with (scrambleSpec ⟨1, [[0], [1], [2], [3], [4]]⟩ 2) 2
      = ⟨1, [[0], [1], [2], [3], [4]]⟩ :=
  restore_inverts_scramble ⟨1, [[0], [1], [2], [3], [4]]⟩ 2 (by decide) (by decide)
    (by decide)

/-- C2. Row-permutation invariant: the band loop reads only in-bounds rows
(`srcTop ≥ 0`, and `srcTop = 0` for the last band), reads and writes no row
twice (the read windows and the write windows are pairwise disjoint),
preserves width and height, and permutes the rows. -/
theorem restore_row_permutation (img : RasterImage) (n : Nat) (h1 : 1 ≤ n)
    (h2 : n ≤ 20) (h3 : n ≤ img.rows.length) :
    (∀ g, g < n →
        0 ≤ srcTop img.rows.length (img.rows.length / n) (img.rows.length % n) g)
    ∧ srcTop img.rows.length (img.rows.length / n) (img.rows.length % n) (n - 1) = 0
    ∧ (∀ g₁ g₂, g₁ < g₂ → g₂ < n →
        (srcTop img.rows.length (img.rows.length / n) (img.rows.length % n) g₂).toNat
            + bandH (img.rows.length / n) (img.rows.length % n) g₂
          ≤ (srcTop img.rows.length (img.rows.length / n) (img.rows.length % n) g₁).toNat)
    ∧ (∀ g₁ g₂, g₁ < g₂ → g₂ < n →
        destTop (img.rows.length / n) (img.rows.length % n) g₁
            + bandH (img.rows.length / n) (img.rows.length % n) g₁
          ≤ destTop (img.rows.length / n) (img.rows.length % n) g₂)
    ∧ (restore_image_with img n).width = img.width
    ∧ (restore_image_with img n).rows.length = img.rows.length
    ∧ (↑(restore_image_with img n).rows : Multiset (List Nat)) = ↑img.rows := by
  obtain ⟨w, rows⟩ := img
  dsimp only at h3 ⊢
  generalize hs : rows.length / n = s
  generalize hr : rows.length % n = r
  have hlen : rows.length = s * n + r := by
    rw [← hs, ← hr, Nat.mul_comm]
    exact (Nat.div_add_mod _ n).symm
  have hrows : (restore_image_with (⟨w, rows⟩ : RasterImage) n).rows
      = (List.range n).foldl
          (fun dest g => bandStep rows rows.length (rows.length / n) (rows.length % n) g dest)
          (blankRows rows.length w) := by
    rw [restore_image_with, if_neg (show ¬ n = 0 by omega)]
  refine ⟨?_, ?_, ?_, ?_, ?_, ?_, ?_⟩
  · intro g hg
    rw [hlen]
    exact srcTop_nonneg hg
  · rw [hlen, srcTop_eq (show n - 1 < n by omega)]
    simp [Nat.sub_self]
  · intro g₁ g₂ h12 h2n
    rw [hlen, srcTop_toNat h2n, srcTop_toNat (Nat.lt_trans h12 h2n),
      bandH_pos _ _ _ (show g₂ ≠ 0 by omega)]
    have e1 : s * (n - 1 - g₂) + s = s * (n - 1 - g₂ + 1) := (Nat.mul_succ _ _).symm
    have e2 : s * (n - 1 - g₂ + 1) ≤ s * (n - 1 - g₁) := Nat.mul_le_mul_left s (by omega)
    omega
  · intro g₁ g₂ h12 h2n
    rw [destTop_pos _ _ g₂ (show g₂ ≠ 0 by omega)]
    by_cases hg1 : g₁ = 0
    · subst hg1
      rw [destTop_zero, bandH_zero]
      have : s * 1 ≤ s * g₂ := Nat.mul_le_mul_left s (by omega)
      omega
    · rw [destTop_pos _ _ g₁ hg1, bandH_pos _ _ _ hg1]
      have e1 : s * (g₁ + 1) = s * g₁ + s := Nat.mul_succ s g₁
      have e2 : s * (g₁ + 1) ≤ s * g₂ := Nat.mul_le_mul_left s (by omega)
      omega
  · rw [restore_image_with, if_neg (show ¬ n = 0 by omega)]
  · rw [hrows]
    exact (restore_rows_perm rows w n h1).length_eq
  · rw [hrows]
    exact Multiset.coe_eq_coe.mpr (restore_rows_perm rows w n h1)

/-- Witness for C2: the multiset of rows is preserved on a concrete image. -/
theorem restore_row_permutation_witness :
    (↑(restore_image_with ⟨1, [[0], [1], [2], [3], [4]]⟩ 2).rows : Multiset (List Nat))
      = ↑([[0], [1], [2], [3], [4]] : List (List Nat)) :=
  (restore_row_permutation ⟨1, [[0], [1], [2], [3], [4]]⟩ 2 (by decide) (by decide)
    (by decide)).2.2.2.2.2.2

/-- C7. Remainder placement for the fixed vector `H = 100`, `N = 3`
(`slice_height = 33`, `remainder = 1`): band `0` has height 34 and copies
source rows `[66,100)` to destination rows `[0,34)`; band `1` has height 33
and copies source rows `[33,66)` to destination rows `[34,67)`; band `2` has
height 33 and copies source rows `[0,33)` to destination rows `[67,100)`. -/
theorem restore_remainder_placement (img : RasterImage) (h100 : img.rows.length = 100) :
    (restore_image_with img 3).rows
        = cropRows img.rows 66 34 ++ cropRows img.rows 33 33 ++ cropRows img.rows 0 33
    ∧ bandH (100 / 3) (100 % 3) 0 = 34 ∧ destTop (100 / 3) (100 % 3) 0 = 0
    ∧ (srcTop 100 (100 / 3) (100 % 3) 0).toNat = 66
    ∧ bandH (100 / 3) (100 % 3) 1 = 33 ∧ destTop (100 / 3) (100 % 3) 1 = 34
    ∧ (srcTop 100 (100 / 3) (100 % 3) 1).toNat = 33
    ∧ bandH (100 / 3) (100 % 3) 2 = 33 ∧ destTop (100 / 3) (100 % 3) 2 = 67
    ∧ (srcTop 100 (100 / 3) (100 % 3) 2).toNat = 0 := by
  refine ⟨?_, by decide, by decide, by decide, by decide, by decide, by decide,
    by decide, by decide, by decide⟩
  rw [restore_image_with_rows img 3 (by omega)]
  dsimp only
  rw [h100]
  norm_num [show List.range' 1 2 = [1, 2] from rfl, List.flatten_cons, List.append_assoc]

/-- Witness for C7 on the concrete 100-row test image. -/
theorem restore_remainder_placement_witness :
    (restore_image_with ⟨1, (List.range 100).map fun i => [i]⟩ 3).rows
      = cropRows ((List.range 100).map fun i => [i]) 66 34
        ++ cropRows ((List.range 100).map fun i => [i]) 33 33
        ++ cropRows ((List.range 100).map fun i => [i]) 0 33 :=
  (restore_remainder_placement ⟨1, (List.range 100).map fun i => [i]⟩ (by simp)).1

/-- C10. Silent identity when the band count exceeds the height:
`slice_height = 0`, `remainder = H`, band `0` has height `H` and copies
source rows `[0,H)` to destination row `0`, every band `g ≥ 1` has height `0`
and copies nothing, and the loop returns an image equal to the input. -/
theorem restore_silent_identity (img : RasterImage) (n : Nat)
    (h1 : 1 ≤ img.rows.length) (h2 : img.rows.length < n) :
    restore_image_with img n = img
    ∧ img.rows.length / n = 0
    ∧ img.rows.length % n = img.rows.length
    ∧ bandH (img.rows.length / n) (img.rows.length % n) 0 = img.rows.length
    ∧ (srcTop img.rows.length (img.rows.length / n) (img.rows.length % n) 0).toNat = 0
    ∧ destTop (img.rows.length / n) (img.rows.length % n) 0 = 0
    ∧ cropRows img.rows
        (srcTop img.rows.length (img.rows.length / n) (img.rows.length % n) 0).toNat
        (bandH (img.rows.length / n) (img.rows.length % n) 0) = img.rows
    ∧ (∀ g, 1 ≤ g → bandH (img.rows.length / n) (img.rows.length % n) g = 0
        ∧ ∀ p, cropRows img.rows p
            (bandH (img.rows.length / n) (img.rows.length % n) g) = []) := by
  have hdiv : img.rows.length / n = 0 := Nat.div_eq_of_lt h2
  have hmod : img.rows.length % n = img.rows.length := Nat.mod_eq_of_lt h2
  have hsrc0 : (srcTop img.rows.length (img.rows.length / n)
      (img.rows.length % n) 0).toNat = 0 := by
    rw [hdiv, hmod]
    simp [srcTop]
  refine ⟨restore_identity_of_height_lt img n h1 h2, hdiv, hmod, ?_, hsrc0, ?_, ?_, ?_⟩
  · rw [hdiv, hmod, bandH_zero, Nat.zero_add]
  · rw [hdiv, hmod, destTop_zero]
  · rw [hsrc0, hdiv, hmod, bandH_zero, Nat.zero_add, cropRows_zero]
    exact List.take_of_length_le (le_refl _)
  · intro g hg
    rw [hdiv, hmod, bandH_pos _ _ _ (by omega)]
    exact ⟨rfl, fun p => cropRows_height_zero _ _⟩

/-- Witness for C10 on a two-row image with three bands. -/
theorem restore_silent_identity_witness :
    restore_image_with ⟨1, [[0], [1]]⟩ 3 = ⟨1, [[0], [1]]⟩ :=
  (restore_silent_identity ⟨1, [[0], [1]]⟩ 3 (by decide) (by decide)).1

/-- C3, counterexample: on a 2-row image with band count 3 (so
`slice_height = 0`), the band loop of `restore_image` raises nothing: it
completes and returns the input image, contradicting the claim that an
`InvalidDimensions`-style error stops the computation. -/
theorem restore_degenerate_counterexample :
    restore_image_with ⟨1, [[0], [1]]⟩ 3 = ⟨1, [[0], [1]]⟩ := by
  decide

/-- C3, amended: for every image of height `H ≥ 1` and band count `N > H`
the reassembler raises no error and does not stop — it silently returns an
image equal to the input. -/
theorem restore_degenerate_no_failure (img : RasterImage) (n : Nat)
    (h1 : 1 ≤ img.rows.length) (h2 : img.rows.length < n) :
    restore_image_with img n = img :=
  restore_identity_of_height_lt img n h1 h2

/-- Witness for the amended C3 on a one-row image. -/
theorem restore_degenerate_no_failure_witness :
    restore_image_with ⟨2, [[3, 4]]⟩ 5 = ⟨2, [[3, 4]]⟩ :=
  restore_degenerate_no_failure ⟨2, [[3, 4]]⟩ 5 (by decide) (by decide)

end PicDownload
